import Mathlib

/-!
Verification of the go-carbon UDP receiver (`receiver/udp.go`).

The embedding models:
* Go `time.Time` as an integer count of nanoseconds (`Time := Int`);
* the `incompleteStorage` map as an association list with Go-map
  insert/lookup/delete semantics;
* the ingestion goroutine of `Listen` as a state-transformer over an
  explicit state (the three `uint32` counters taken modulo `2^32`, the
  incomplete-line storage, the list of points forwarded to `rcv.out`,
  and, as instrumentation, the list of arguments passed to the external
  collaborator `points.ParseText`);
* the interleaving between the ingestion goroutine, the stats-reporter
  goroutine and `Stop` as explicit event traces.
-/

namespace UDP

/-- Go `time.Time`, modelled as an integer count of nanoseconds. -/
abbrev Time := Int

/-- Go `time.Second` in nanoseconds. -/
def timeSecond : Time := 1000000000

/-- The newline delimiter byte `'\x0a'` used by `ReadBytes` in `Listen`. -/
def nl : Nat := 10

/-- 2^32, the modulus of the `uint32` counters. -/
def u32 : Nat := 4294967296

/-- Model of `incompleteRecord` (udp.go lines 41-44): an incomplete line together
with its expiry deadline. -/
structure incompleteRecord where
  deadline : Time
  data : List Nat
deriving DecidableEq

/-- Model of `incompleteStorage` (udp.go lines 46-52).  The Go map
`map[string]*incompleteRecord` is modelled as an association list with
distinct keys maintained by the operations below. -/
structure incompleteStorage where
  Records : List (String × incompleteRecord)
  Expires : Time
  NextPurge : Time
  MaxSize : Nat
deriving DecidableEq

/-- Model of `newIncompleteStorage` (lines 54-61), with `now` the value of
`time.Now()` at creation. -/
def newIncompleteStorage (now : Time) : incompleteStorage :=
  { Records := [], Expires := 5 * timeSecond, MaxSize := 10000,
    NextPurge := now + timeSecond }

/-- Go map read `storage.Records[addr]`. -/
def lookupRec : List (String × incompleteRecord) → String → Option incompleteRecord
  | [], _ => none
  | (k, v) :: rest, addr => if k = addr then some v else lookupRec rest addr

/-- Go map assignment `storage.Records[addr] = rec`. -/
def insertRec : List (String × incompleteRecord) → String → incompleteRecord →
    List (String × incompleteRecord)
  | [], addr, rec => [(addr, rec)]
  | (k, v) :: rest, addr, rec =>
    if k = addr then (addr, rec) :: rest else (k, v) :: insertRec rest addr rec

/-- Go map removal `delete(storage.Records, addr)`. -/
def eraseRec : List (String × incompleteRecord) → String → List (String × incompleteRecord)
  | [], _ => []
  | (k, v) :: rest, addr => if k = addr then rest else (k, v) :: eraseRec rest addr

/-- Model of `purge` (lines 82-90): remove every record whose deadline lies
strictly before `now` (`record.deadline.Before(now)`) and schedule the
next purge one second from now. -/
def purge (storage : incompleteStorage) (now : Time) : incompleteStorage :=
  { storage with
    Records := storage.Records.filter (fun kr => !decide (kr.2.deadline < now)),
    NextPurge := now + timeSecond }

/-- Model of `checkAndClear` (lines 92-100): purge only when the map has reached
`MaxSize` and the current time is not before `NextPurge`
(`storage.NextPurge.After(time.Now())` is `now < NextPurge`). -/
def checkAndClear (storage : incompleteStorage) (now : Time) : incompleteStorage :=
  if storage.Records.length < storage.MaxSize then storage
  else if now < storage.NextPurge then storage
  else purge storage now

/-- The map write performed by `store` (lines 64-67), before the
`checkAndClear` call: overwrite the entry for `addr` with a fresh record
whose deadline is `time.Now().Add(storage.Expires)`. -/
def setRecord (storage : incompleteStorage) (addr : String) (data : List Nat)
    (now : Time) : incompleteStorage :=
  { storage with
    Records := insertRec storage.Records addr ⟨now + storage.Expires, data⟩ }

/-- Model of `store` (lines 63-69): the map write followed by `checkAndClear`. -/
def store (storage : incompleteStorage) (addr : String) (data : List Nat)
    (now : Time) : incompleteStorage :=
  checkAndClear (setRecord storage addr data now) now

/-- Model of `pop` (lines 71-80): if a record is present it is always removed;
its data is returned only when `record.deadline.Before(time.Now())` is
false, otherwise `nil` is returned. -/
def pop (storage : incompleteStorage) (addr : String) (now : Time) :
    Option (List Nat) × incompleteStorage :=
  match lookupRec storage.Records addr with
  | some record =>
    (if record.deadline < now then none else some record.data,
     { storage with Records := eraseRec storage.Records addr })
  | none => (none, storage)

theorem lookupRec_insertRec_self (l : List (String × incompleteRecord)) (k : String)
    (v : incompleteRecord) : lookupRec (insertRec l k v) k = some v := by
  induction l with
  | nil => simp [insertRec, lookupRec]
  | cons kv rest ih =>
    obtain ⟨k', v'⟩ := kv
    by_cases h : k' = k
    · simp [insertRec, h, lookupRec]
    · simp [insertRec, h, lookupRec, ih]

theorem lookupRec_insertRec_ne (l : List (String × incompleteRecord)) (k k' : String)
    (v : incompleteRecord) (h : k' ≠ k) :
    lookupRec (insertRec l k v) k' = lookupRec l k' := by
  have h2 : ¬ k = k' := fun e => h e.symm
  induction l with
  | nil => simp [insertRec, lookupRec, h2]
  | cons kv rest ih =>
    obtain ⟨a, b⟩ := kv
    by_cases ha : a = k
    · subst ha
      simp [insertRec, lookupRec, h2]
    · simp [insertRec, ha, lookupRec, ih]

/-- C8: `store` unconditionally overwrites the fragment for the given
identity with deadline `now + Expires`, afterwards runs the
`checkAndClear` purge check, and the map write itself leaves every other
identity's entry untouched. -/
theorem store_overwrites (s : incompleteStorage) (addr : String) (data : List Nat)
    (now : Time) :
    store s addr data now = checkAndClear (setRecord s addr data now) now ∧
    (setRecord s addr data now).Records =
      insertRec s.Records addr ⟨now + s.Expires, data⟩ ∧
    lookupRec (setRecord s addr data now).Records addr =
      some ⟨now + s.Expires, data⟩ ∧
    (∀ addr', addr' ≠ addr →
      lookupRec (setRecord s addr data now).Records addr' =
        lookupRec s.Records addr') := by
  refine ⟨rfl, rfl, ?_, ?_⟩
  · exact lookupRec_insertRec_self s.Records addr ⟨now + s.Expires, data⟩
  · intro addr' h
    exact lookupRec_insertRec_ne s.Records addr addr' ⟨now + s.Expires, data⟩ h

/-- A concrete storage used by several witnesses. -/
def storeB : incompleteStorage :=
  { Records := [("b", ⟨7, [66]⟩)], Expires := 5 * timeSecond,
    NextPurge := 100, MaxSize := 10000 }

/-- Witness for C8 at a concrete input: storing for identity `"a"`
overwrites nothing but `"a"` (the entry for `"b"` is untouched). -/
theorem store_overwrites_witness :
    store storeB ("a") [65] 0 = checkAndClear (setRecord storeB ("a") [65] 0) 0 ∧
    lookupRec (setRecord storeB ("a") [65] 0).Records ("a") =
      some ⟨0 + storeB.Expires, [65]⟩ ∧
    ("b" : String) ≠ "a" ∧
    lookupRec (setRecord storeB ("a") [65] 0).Records ("b") =
      lookupRec storeB.Records ("b") :=
  ⟨(store_overwrites storeB ("a") [65] 0).1,
   (store_overwrites storeB ("a") [65] 0).2.2.1,
   by decide,
   (store_overwrites storeB ("a") [65] 0).2.2.2 ("b") (by decide)⟩

/-- C4: `pop` removes any present record; it returns the data only when
the deadline has not passed, returns `none` (discarding the data) when
the deadline lies in the past, and never returns data whose deadline is
in the past. -/
theorem pop_never_stale (s : incompleteStorage) (addr : String) (now : Time) :
    (∀ r, lookupRec s.Records addr = some r →
      (pop s addr now).2.Records = eraseRec s.Records addr ∧
      (r.deadline < now → (pop s addr now).1 = none) ∧
      (¬ r.deadline < now → (pop s addr now).1 = some r.data)) ∧
    (lookupRec s.Records addr = none → pop s addr now = (none, s)) ∧
    (∀ d, (pop s addr now).1 = some d →
      ∃ r, lookupRec s.Records addr = some r ∧ ¬ r.deadline < now ∧ d = r.data) := by
  refine ⟨?_, ?_, ?_⟩
  · intro r hr
    refine ⟨by simp [pop, hr], ?_, ?_⟩
    · intro hlt; simp [pop, hr, hlt]
    · intro hge; simp [pop, hr, hge]
  · intro hn; simp [pop, hn]
  · intro d hd
    unfold pop at hd
    cases hr : lookupRec s.Records addr with
    | none => rw [hr] at hd; simp at hd
    | some r =>
      rw [hr] at hd
      by_cases hlt : r.deadline < now
      · simp [hlt] at hd
      · simp [hlt] at hd
        exact ⟨r, rfl, hlt, hd.symm⟩

/-- A concrete storage holding one record with deadline 10 for `"a"`. -/
def storeA : incompleteStorage :=
  { Records := [("a", ⟨10, [65]⟩)], Expires := 5 * timeSecond,
    NextPurge := 100, MaxSize := 10000 }

/-- Witness for C4: before the deadline (`now = 5`) `pop` returns the
data and removes the entry; after the deadline (`now = 20`) it returns
`none`; for an absent identity it returns `none` and leaves the storage
unchanged. -/
theorem pop_never_stale_witness :
    lookupRec storeA.Records ("a") = some ⟨10, [65]⟩ ∧
    ((pop storeA ("a") 5).1 = some [65] ∧
      (pop storeA ("a") 5).2.Records = eraseRec storeA.Records ("a")) ∧
    (pop storeA ("a") 20).1 = none ∧
    pop storeA ("c") 5 = (none, storeA) :=
  ⟨by decide,
   ⟨((pop_never_stale storeA ("a") 5).1 ⟨10, [65]⟩ (by decide)).2.2 (by decide),
    ((pop_never_stale storeA ("a") 5).1 ⟨10, [65]⟩ (by decide)).1⟩,
   ((pop_never_stale storeA ("a") 20).1 ⟨10, [65]⟩ (by decide)).2.1 (by decide),
   (pop_never_stale storeA ("c") 5).2.1 (by decide)⟩

/-- C5: `checkAndClear` is a no-op below `MaxSize`, a no-op before
`NextPurge`, and otherwise performs exactly one purge (removing every
expired entry and scheduling the next purge one second after `now`);
after that purge every call strictly within the following second is a
no-op, so at most one full scan happens per one-second window. -/
theorem purge_rate_limited (s : incompleteStorage) (now : Time) :
    (s.Records.length < s.MaxSize → checkAndClear s now = s) ∧
    (now < s.NextPurge → checkAndClear s now = s) ∧
    (s.MaxSize ≤ s.Records.length → s.NextPurge ≤ now →
      checkAndClear s now = purge s now ∧
      (purge s now).Records =
        s.Records.filter (fun kr => !decide (kr.2.deadline < now)) ∧
      (purge s now).NextPurge = now + timeSecond ∧
      (∀ t', t' < now + timeSecond →
        checkAndClear (purge s now) t' = purge s now)) := by
  refine ⟨?_, ?_, ?_⟩
  · intro h; simp [checkAndClear, h]
  · intro h
    unfold checkAndClear
    by_cases h1 : s.Records.length < s.MaxSize
    · simp [h1]
    · simp [h1, h]
  · intro h1 h2
    have hsize : ¬ s.Records.length < s.MaxSize := not_lt.mpr h1
    have htime : ¬ now < s.NextPurge := not_lt.mpr h2
    refine ⟨by simp [checkAndClear, hsize, htime], rfl, rfl, ?_⟩
    intro t' ht'
    unfold checkAndClear
    by_cases hps : (purge s now).Records.length < (purge s now).MaxSize
    · simp [hps]
    · have hnp : t' < (purge s now).NextPurge := by
        rw [show (purge s now).NextPurge = now + timeSecond from rfl]
        exact ht'
      simp [hps, hnp]

/-- A full storage (at `MaxSize`) with one expired and one live record. -/
def storeFull : incompleteStorage :=
  { Records := [("a", ⟨0, []⟩), ("b", ⟨100, []⟩)], Expires := 5 * timeSecond,
    NextPurge := 50, MaxSize := 2 }

/-- Witness for C5 at concrete inputs: a call before `NextPurge` is a
no-op, a call at-or-after it purges (dropping only the expired entry and
moving `NextPurge` one second ahead), and a second call within the next
second is again a no-op.  A storage below `MaxSize` is never purged. -/
theorem purge_rate_limited_witness :
    (storeFull.Records.length < (3 : Nat) → True) ∧
    ({ storeFull with MaxSize := 3 }.Records.length <
        { storeFull with MaxSize := 3 }.MaxSize ∧
      checkAndClear { storeFull with MaxSize := 3 } 60 =
        { storeFull with MaxSize := 3 }) ∧
    ((60 : Time) < (100 : Time) ∧
      checkAndClear { storeFull with NextPurge := 100 } 60 =
        { storeFull with NextPurge := 100 }) ∧
    (storeFull.MaxSize ≤ storeFull.Records.length ∧ storeFull.NextPurge ≤ 60 ∧
      checkAndClear storeFull 60 = purge storeFull 60 ∧
      (purge storeFull 60).Records = [("b", ⟨100, []⟩)] ∧
      (purge storeFull 60).NextPurge = 60 + timeSecond ∧
      ((61 : Time) < 60 + timeSecond ∧
        checkAndClear (purge storeFull 60) 61 = purge storeFull 60)) :=
  ⟨fun _ => trivial,
   ⟨by decide, (purge_rate_limited { storeFull with MaxSize := 3 } 60).1 (by decide)⟩,
   ⟨by decide, (purge_rate_limited { storeFull with NextPurge := 100 } 60).2.1 (by decide)⟩,
   by
    have h := (purge_rate_limited storeFull 60).2.2 (by decide) (by decide)
    exact ⟨by decide, by decide, h.1, by decide, h.2.2.1,
      by decide, h.2.2.2 61 (by decide)⟩⟩

/-- State of the ingestion goroutine (udp.go lines 194-257): the three
`uint32` counters of the `UDP` struct, the incomplete-line storage
`lines`, the sequence of points forwarded to `rcv.out`, and, as
instrumentation, the sequence of arguments passed to the external
collaborator `points.ParseText`.  `P` is the opaque point type produced
by the parser. -/
structure IterState (P : Type) where
  metricsReceived : Nat
  incompleteReceived : Nat
  errors : Nat
  storage : incompleteStorage
  out : List P
  parseCalls : List (List Nat)

/-- The goroutine's state right after `lines := newIncompleteStorage()`
(line 201), with `t0` the creation time. -/
def initState (P : Type) (t0 : Time) : IterState P :=
  { metricsReceived := 0, incompleteReceived := 0, errors := 0,
    storage := newIncompleteStorage t0, out := [], parseCalls := [] }

/-- The successive results of `data.ReadBytes('\x0a')` (line 224) on a
buffer holding `acc ++ rest` where `acc` has already been scanned
without finding a delimiter: the list of complete lines, each including
its trailing delimiter byte, followed by the leftover that `ReadBytes`
returns together with `io.EOF`. -/
def readLines (acc : List Nat) : List Nat → List (List Nat) × List Nat
  | [] => ([], acc)
  | b :: rest =>
    if b = nl then ((acc ++ [nl]) :: (readLines [] rest).1, (readLines [] rest).2)
    else readLines (acc ++ [b]) rest

/-- Lines 243-251: a complete line is handed to `points.ParseText` when
`len(line) > 0`; a parse error bumps `errors`, a success bumps
`metricsReceived` and forwards the point on `rcv.out`. -/
def handleLine {P : Type} (parse : List Nat → Option P) (st : IterState P)
    (line : List Nat) : IterState P :=
  if 0 < line.length then
    match parse line with
    | none =>
      { st with
        errors := (st.errors + 1) % u32,
        parseCalls := st.parseCalls ++ [line] }
    | some msg =>
      { st with
        metricsReceived := (st.metricsReceived + 1) % u32,
        out := st.out ++ [msg], parseCalls := st.parseCalls ++ [line] }
  else st

/-- Lines 226-236, the `io.EOF` branch: a non-empty leftover is stored
as an incomplete line and `incompleteReceived` is bumped; an empty
leftover does nothing. -/
def handleTail {P : Type} (st : IterState P) (peer : String) (now : Time)
    (tail : List Nat) : IterState P :=
  if 0 < tail.length then
    { st with
      storage := store st.storage peer tail now,
      incompleteReceived := (st.incompleteReceived + 1) % u32 }
  else st

/-- One datagram iteration, lines 214-252: `pop` any pending fragment
for the peer, prepend it to the datagram, split the combined buffer with
`ReadBytes`, dispatch each complete line, and store back the leftover.
(`bytes.Buffer.ReadBytes` can only fail with `io.EOF`, so the dead
`else` branch of line 237 never runs.) -/
def handleDatagram {P : Type} (parse : List Nat → Option P) (st : IterState P)
    (peer : String) (now : Time) (dgram : List Nat) : IterState P :=
  let pr := pop st.storage peer now
  let st1 : IterState P := { st with storage := pr.2 }
  let buf := match pr.1 with
    | some prev => prev ++ dgram
    | none => dgram
  let r := readLines [] buf
  handleTail (r.1.foldl (handleLine parse) st1) peer now r.2

/-- The outcome of one `rcv.conn.ReadFromUDP` call (line 204). -/
inductive ReadResult where
  | ok (peer : String) (dgram : List Nat)
  | err (msg : String)
deriving DecidableEq

/-- Whether the receive loop breaks or continues after an iteration. -/
inductive Control where
  | brk
  | cont
deriving DecidableEq

/-- The error text matched on line 206. -/
def closedMsgChars : List Char := "use of closed network connection".toList

/-- Whether the character sequence starts with the given needle. -/
def seqStartsWith : List Char → List Char → Bool
  | _, [] => true
  | [], _ :: _ => false
  | c :: cs, d :: ds => c = d && seqStartsWith cs ds

/-- Go helper `strings.Contains` on character sequences: some suffix of the
haystack starts with the needle. -/
def seqContains : List Char → List Char → Bool
  | [], needle => needle.isEmpty
  | c :: cs, needle => seqStartsWith (c :: cs) needle || seqContains cs needle

/-- Line 206: `strings.Contains(err.Error(), "use of closed network
connection")`. -/
def isClosedErr (msg : String) : Bool := seqContains msg.toList closedMsgChars

/-- One iteration of the receive loop (lines 204-252) given the outcome
of `ReadFromUDP`: the expected-closure error breaks out of the loop,
any other read error bumps `errors` and continues, and a successful
read processes the datagram. -/
def listenStep {P : Type} (parse : List Nat → Option P) (st : IterState P)
    (now : Time) : ReadResult → IterState P × Control
  | .err msg =>
    if isClosedErr msg then (st, Control.brk)
    else ({ st with errors := (st.errors + 1) % u32 }, Control.cont)
  | .ok peer dgram => (handleDatagram parse st peer now dgram, Control.cont)

/-- The receive loop over a sequence of timestamped read outcomes,
stopping at the first `brk`. -/
def runListen {P : Type} (parse : List Nat → Option P) (st : IterState P) :
    List (Time × ReadResult) → IterState P
  | [] => st
  | (t, r) :: rest =>
    match listenStep parse st t r with
    | (st1, Control.brk) => st1
    | (st1, Control.cont) => runListen parse st1 rest

/-- A parser collaborator that rejects every line; used by witnesses. -/
def parseNone : List Nat → Option Unit := fun _ => none

/-- A fixed peer address string for single-sender statements. -/
def peerA : String := "senderA"

/-- C6: on a read failure, the expected socket-closed error (recognized
by its content, line 206) terminates the loop with the whole state,
counters included, unchanged; any other read error increments `errors`
exactly once, changes nothing else, and the loop continues. -/
theorem read_error_handling {P : Type} (parse : List Nat → Option P)
    (st : IterState P) (now : Time) (msg : String) :
    (isClosedErr msg = true →
      listenStep parse st now (ReadResult.err msg) = (st, Control.brk)) ∧
    (isClosedErr msg = false →
      listenStep parse st now (ReadResult.err msg) =
        ({ st with errors := (st.errors + 1) % u32 }, Control.cont)) := by
  constructor <;> intro h <;> simp [listenStep, h]

/-- Witness for C6: the error string Go produces for a read on a closed
socket breaks the loop without touching the state, and an i/o timeout
increments `errors` once and continues. -/
theorem read_error_handling_witness :
    isClosedErr ("read udp [::]:2003: use of closed network connection") = true ∧
    isClosedErr ("read udp [::]:2003: i/o timeout") = false ∧
    listenStep parseNone (initState Unit 0) 0
        (ReadResult.err ("read udp [::]:2003: use of closed network connection")) =
      (initState Unit 0, Control.brk) ∧
    listenStep parseNone (initState Unit 0) 0
        (ReadResult.err ("read udp [::]:2003: i/o timeout")) =
      ({ initState Unit 0 with
          errors := ((initState Unit 0).errors + 1) % u32 }, Control.cont) :=
  ⟨by decide, by decide,
   (read_error_handling parseNone (initState Unit 0) 0
      ("read udp [::]:2003: use of closed network connection")).1 (by decide),
   (read_error_handling parseNone (initState Unit 0) 0
      ("read udp [::]:2003: i/o timeout")).2 (by decide)⟩

/-- C3 (code bug): a datagram consisting of one delimiter byte is NOT
silently skipped.  `ReadBytes` returns the line `"\x0a"` including its
delimiter, so the `len(line) > 0` guard of line 243 (commented
`// skip empty lines`) is true, the line is passed to
`points.ParseText`, and exactly one of `metricsReceived`/`errors` is
incremented — for every possible parser collaborator. -/
theorem empty_line_not_skipped {P : Type} (parse : List Nat → Option P)
    (t0 now : Time) :
    (handleDatagram parse (initState P t0) peerA now [nl]).parseCalls = [[nl]] ∧
    (handleDatagram parse (initState P t0) peerA now [nl]).metricsReceived +
      (handleDatagram parse (initState P t0) peerA now [nl]).errors = 1 ∧
    (handleDatagram parse (initState P t0) peerA now [nl]).incompleteReceived
      = 0 := by
  cases hp : parse [nl] with
  | none =>
    refine ⟨?_, ?_, ?_⟩ <;>
      simp [handleDatagram, initState, newIncompleteStorage, pop, lookupRec,
        readLines, handleLine, handleTail, hp, u32]
  | some msg =>
    refine ⟨?_, ?_, ?_⟩ <;>
      simp [handleDatagram, initState, newIncompleteStorage, pop, lookupRec,
        readLines, handleLine, handleTail, hp, u32]

theorem readLines_append (a : List Nat) : ∀ (b acc : List Nat),
    readLines acc (a ++ b) =
      ((readLines acc a).1 ++ (readLines (readLines acc a).2 b).1,
        (readLines (readLines acc a).2 b).2) := by
  induction a with
  | nil => intro b acc; simp [readLines]
  | cons x a ih =>
    intro b acc
    by_cases hx : x = nl
    · subst hx
      simp [readLines, ih]
    · simp [readLines, hx, ih]

theorem readLines_nlFree (buf : List Nat) : ∀ acc : List Nat,
    nl ∉ buf → readLines acc buf = ([], acc ++ buf) := by
  induction buf with
  | nil => intro acc _; simp [readLines]
  | cons b rest ih =>
    intro acc h
    have hb : ¬ b = nl := fun e => h (by simp [e])
    have hr : nl ∉ rest := fun hm => h (by simp [hm])
    simp [readLines, hb, ih (acc ++ [b]) hr]

theorem readLines_tail_nlFree (buf : List Nat) : ∀ acc : List Nat,
    nl ∉ acc → nl ∉ (readLines acc buf).2 := by
  induction buf with
  | nil => intro acc h; simpa [readLines] using h
  | cons b rest ih =>
    intro acc h
    by_cases hb : b = nl
    · subst hb
      simpa [readLines] using ih [] (by simp)
    · have hacc : nl ∉ acc ++ [b] := by
        intro hm
        rcases List.mem_append.mp hm with h1 | h1
        · exact h h1
        · simp at h1; exact hb h1.symm
      simpa [readLines, hb] using ih (acc ++ [b]) hacc

theorem readLines_ends_nl (buf : List Nat) : ∀ acc : List Nat,
    ∀ l ∈ (readLines acc buf).1, l.getLast? = some nl := by
  induction buf with
  | nil => intro acc l hl; simp [readLines] at hl
  | cons b rest ih =>
    intro acc l hl
    by_cases hb : b = nl
    · subst hb
      simp only [readLines, if_pos rfl] at hl
      cases hl with
      | head => simp [List.getLast?_concat]
      | tail _ h => exact ih [] l h
    · simp only [readLines, if_neg hb] at hl
      exact ih (acc ++ [b]) l hl

theorem readLines_ne_nil (buf acc : List Nat) :
    ∀ l ∈ (readLines acc buf).1, l ≠ [] := by
  intro l hl he
  have := readLines_ends_nl buf acc l hl
  rw [he] at this
  simp at this

/-- Folding `handleLine` over a list of non-empty lines: every line is
passed to the parser in order, the successfully parsed points are
appended to `out` in order, and neither the storage nor the
incomplete counter changes. -/
theorem foldl_handleLine {P : Type} (parse : List Nat → Option P) :
    ∀ (lines : List (List Nat)) (st : IterState P), (∀ l ∈ lines, l ≠ []) →
      (lines.foldl (handleLine parse) st).out = st.out ++ lines.filterMap parse ∧
      (lines.foldl (handleLine parse) st).parseCalls = st.parseCalls ++ lines ∧
      (lines.foldl (handleLine parse) st).storage = st.storage ∧
      (lines.foldl (handleLine parse) st).incompleteReceived
        = st.incompleteReceived := by
  intro lines
  induction lines with
  | nil => intro st _; simp
  | cons l ls ih =>
    intro st h
    have hl : l ≠ [] := h l (by simp)
    have hlen : 0 < l.length := List.length_pos.mpr hl
    have hrest : ∀ x ∈ ls, x ≠ [] := fun x hx => h x (by simp [hx])
    cases hp : parse l with
    | none =>
      have h2 := ih { st with
        errors := (st.errors + 1) % u32,
        parseCalls := st.parseCalls ++ [l] } hrest
      simp only [List.foldl_cons, handleLine, if_pos hlen, hp] at h2 ⊢
      simp_all
    | some msg =>
      have h2 := ih { st with
        metricsReceived := (st.metricsReceived + 1) % u32,
        out := st.out ++ [msg], parseCalls := st.parseCalls ++ [l] } hrest
      simp only [List.foldl_cons, handleLine, if_pos hlen, hp] at h2 ⊢
      simp_all

theorem mem_insertRec (l : List (String × incompleteRecord)) (k : String)
    (v : incompleteRecord) :
    ∀ p ∈ insertRec l k v, p = (k, v) ∨ p ∈ l := by
  induction l with
  | nil => intro p hp; simp [insertRec] at hp; simp [hp]
  | cons kv rest ih =>
    obtain ⟨a, b⟩ := kv
    intro p hp
    by_cases ha : a = k
    · simp [insertRec, ha] at hp
      rcases hp with rfl | hp
      · exact Or.inl rfl
      · exact Or.inr (by simp [hp])
    · simp only [insertRec, if_neg ha, List.mem_cons] at hp
      rcases hp with rfl | hp
      · exact Or.inr (by simp)
      · rcases ih p hp with h1 | h1
        · exact Or.inl h1
        · exact Or.inr (by simp [h1])

theorem mem_eraseRec (l : List (String × incompleteRecord)) (k : String) :
    ∀ p ∈ eraseRec l k, p ∈ l := by
  induction l with
  | nil => intro p hp; simp [eraseRec] at hp
  | cons kv rest ih =>
    obtain ⟨a, b⟩ := kv
    intro p hp
    by_cases ha : a = k
    · simp only [eraseRec, if_pos ha] at hp
      exact by simp [hp]
    · simp only [eraseRec, if_neg ha, List.mem_cons] at hp
      rcases hp with rfl | hp
      · simp
      · exact by simp [ih p hp]

theorem lookupRec_mem (l : List (String × incompleteRecord)) (k : String)
    (r : incompleteRecord) (h : lookupRec l k = some r) : (k, r) ∈ l := by
  induction l with
  | nil => simp [lookupRec] at h
  | cons kv rest ih =>
    obtain ⟨a, b⟩ := kv
    by_cases ha : a = k
    · subst ha
      simp [lookupRec] at h
      simp [h]
    · simp only [lookupRec, if_neg ha] at h
      simp [ih h]

/-- Every fragment in the storage is free of delimiter bytes. -/
def FragsNlFree (s : incompleteStorage) : Prop :=
  ∀ p ∈ s.Records, nl ∉ p.2.data

theorem fragsNlFree_store (s : incompleteStorage) (peer : String)
    (tail : List Nat) (now : Time) (hs : FragsNlFree s) (ht : nl ∉ tail) :
    FragsNlFree (store s peer tail now) := by
  have hset : FragsNlFree (setRecord s peer tail now) := by
    intro p hp
    rcases mem_insertRec s.Records peer ⟨now + s.Expires, tail⟩ p hp with rfl | hmem
    · exact ht
    · exact hs p hmem
  unfold store checkAndClear
  by_cases h1 : (setRecord s peer tail now).Records.length
      < (setRecord s peer tail now).MaxSize
  · simpa [h1] using hset
  · by_cases h2 : now < (setRecord s peer tail now).NextPurge
    · simpa [h1, h2] using hset
    · simp only [h1, h2, if_false]
      intro p hp
      exact hset p (List.mem_filter.mp hp).1

theorem fragsNlFree_handleDatagram {P : Type} (parse : List Nat → Option P)
    (st : IterState P) (peer : String) (now : Time) (d : List Nat)
    (hs : FragsNlFree st.storage) :
    FragsNlFree (handleDatagram parse st peer now d).storage := by
  unfold handleDatagram
  set pr := pop st.storage peer now with hpr
  have hpop : FragsNlFree pr.2 := by
    rw [hpr]
    unfold pop
    cases hr : lookupRec st.storage.Records peer with
    | some r =>
      intro p hp
      exact hs p (mem_eraseRec st.storage.Records peer p hp)
    | none => exact hs
  set st1 : IterState P := { st with storage := pr.2 } with hst1
  set buf : List Nat := (match pr.1 with
    | some prev => prev ++ d
    | none => d) with hbuf
  have hfold := (foldl_handleLine parse (readLines [] buf).1 st1
    (readLines_ne_nil buf [])).2.2.1
  unfold handleTail
  by_cases htl : 0 < (readLines [] buf).2.length
  · simp only [htl, if_true]
    have htail : nl ∉ (readLines [] buf).2 :=
      readLines_tail_nlFree buf [] (by simp)
    exact fragsNlFree_store _ peer _ now (by rw [hfold]; exact hpop) htail
  · simpa [htl, hfold] using hpop

/-- C9: in any run of the receive loop from a fresh storage, every
fragment held in the incomplete-line storage is free of delimiter
bytes (a tail is only stored when the delimiter scan hits `io.EOF`);
consequently a combined buffer `fragment ++ datagram` contains exactly
the delimiters of the new datagram. -/
theorem stored_fragments_nlFree {P : Type} (parse : List Nat → Option P)
    (inputs : List (Time × ReadResult)) (t0 : Time) :
    FragsNlFree (runListen parse (initState P t0) inputs).storage ∧
    (∀ st : IterState P, FragsNlFree st.storage →
      ∀ peer now d prev, (pop st.storage peer now).1 = some prev →
        (prev ++ d).count nl = d.count nl) := by
  constructor
  · have main : ∀ (inputs : List (Time × ReadResult)) (st : IterState P),
        FragsNlFree st.storage →
        FragsNlFree (runListen parse st inputs).storage := by
      intro inputs
      induction inputs with
      | nil => intro st h; simpa [runListen] using h
      | cons tr rest ih =>
        obtain ⟨t, r⟩ := tr
        intro st h
        cases r with
        | err msg =>
          by_cases hc : isClosedErr msg
          · simpa [runListen, listenStep, hc] using h
          · simpa [runListen, listenStep, hc] using
              ih { st with errors := (st.errors + 1) % u32 } h
        | ok peer dgram =>
          simpa [runListen, listenStep] using
            ih _ (fragsNlFree_handleDatagram parse st peer t dgram h)
    exact main inputs (initState P t0) (by
      intro p hp
      simp [initState, newIncompleteStorage] at hp)
  · intro st hst peer now d prev hpop
    unfold pop at hpop
    cases hr : lookupRec st.storage.Records peer with
    | none => rw [hr] at hpop; simp at hpop
    | some r =>
      rw [hr] at hpop
      by_cases hlt : r.deadline < now
      · simp [hlt] at hpop
      · simp only [hlt, if_neg, if_false, Option.some.injEq] at hpop
        have hmem := lookupRec_mem st.storage.Records peer r hr
        have hnl : nl ∉ prev := by
          rw [← hpop]
          exact hst (peer, r) hmem
        rw [List.count_append, List.count_eq_zero.mpr hnl]
        simp

/-- Witness for C9: after one datagram `"A"` (no delimiter) the storage
holds the fragment `"A"`, which contains no delimiter byte, and
prepending it to the next datagram adds no delimiters. -/
theorem stored_fragments_nlFree_witness :
    (("senderA", (⟨(0 : Time) + 5 * timeSecond, [65]⟩ : incompleteRecord)) ∈
      (runListen parseNone (initState Unit 0)
        [(0, ReadResult.ok ("senderA") [65])]).storage.Records ∧
      nl ∉ [65]) ∧
    ((pop (runListen parseNone (initState Unit 0)
        [(0, ReadResult.ok ("senderA") [65])]).storage ("senderA") 1).1
        = some [65] ∧
      ([65] ++ [66, nl]).count nl = [66, nl].count nl) :=
  ⟨⟨by decide,
    (stored_fragments_nlFree parseNone [(0, ReadResult.ok ("senderA") [65])] 0).1
      ("senderA", ⟨(0 : Time) + 5 * timeSecond, [65]⟩) (by decide)⟩,
   ⟨by decide,
    (stored_fragments_nlFree parseNone [(0, ReadResult.ok ("senderA") [65])] 0).2
      (runListen parseNone (initState Unit 0) [(0, ReadResult.ok ("senderA") [65])])
      (stored_fragments_nlFree parseNone [(0, ReadResult.ok ("senderA") [65])] 0).1
      ("senderA") 1 [66, nl] [65] (by decide)⟩⟩

theorem handleTail_keeps {P : Type} (st : IterState P) (peer : String)
    (now : Time) (tail : List Nat) :
    (handleTail st peer now tail).parseCalls = st.parseCalls ∧
    (handleTail st peer now tail).out = st.out := by
  by_cases h : 0 < tail.length <;> simp [handleTail, h]

/-- What one datagram iteration passes to the parser and forwards to
`rcv.out`: exactly the complete lines of the combined buffer
`pending ++ datagram`, respectively those of them the parser accepts,
in order. -/
theorem handleDatagram_calls {P : Type} (parse : List Nat → Option P)
    (st : IterState P) (peer : String) (now : Time) (d : List Nat) :
    (handleDatagram parse st peer now d).parseCalls =
      st.parseCalls ++
        (readLines [] ((pop st.storage peer now).1.getD [] ++ d)).1 ∧
    (handleDatagram parse st peer now d).out =
      st.out ++
        ((readLines [] ((pop st.storage peer now).1.getD [] ++ d)).1.filterMap
          parse) := by
  have key : ∀ (st1 : IterState P) (buf : List Nat),
      (handleTail ((readLines [] buf).1.foldl (handleLine parse) st1) peer now
          (readLines [] buf).2).parseCalls =
        st1.parseCalls ++ (readLines [] buf).1 ∧
      (handleTail ((readLines [] buf).1.foldl (handleLine parse) st1) peer now
          (readLines [] buf).2).out =
        st1.out ++ (readLines [] buf).1.filterMap parse := by
    intro st1 buf
    obtain ⟨ho, hp2, _, _⟩ :=
      foldl_handleLine parse (readLines [] buf).1 st1 (readLines_ne_nil buf [])
    obtain ⟨ht1, ht2⟩ := handleTail_keeps
      ((readLines [] buf).1.foldl (handleLine parse) st1) peer now
      (readLines [] buf).2
    exact ⟨by rw [ht1, hp2], by rw [ht2, ho]⟩
  unfold handleDatagram
  cases hp : (pop st.storage peer now).1 with
  | none =>
    simpa [hp] using key { st with storage := (pop st.storage peer now).2 } d
  | some prev =>
    simpa [hp] using
      key { st with storage := (pop st.storage peer now).2 } (prev ++ d)

theorem runListen_parseCalls_nl {P : Type} (parse : List Nat → Option P) :
    ∀ (inputs : List (Time × ReadResult)) (st : IterState P),
      (∀ l ∈ st.parseCalls, l.getLast? = some nl) →
      ∀ l ∈ (runListen parse st inputs).parseCalls, l.getLast? = some nl := by
  intro inputs
  induction inputs with
  | nil => intro st h; simpa [runListen] using h
  | cons tr rest ih =>
    obtain ⟨t, r⟩ := tr
    intro st h
    cases r with
    | err msg =>
      by_cases hc : isClosedErr msg
      · simpa [runListen, listenStep, hc] using h
      · exact (by
          simpa [runListen, listenStep, hc] using
            ih { st with errors := (st.errors + 1) % u32 } h)
    | ok peer dgram =>
      have hnew : ∀ l ∈ (handleDatagram parse st peer t dgram).parseCalls,
          l.getLast? = some nl := by
        rw [(handleDatagram_calls parse st peer t dgram).1]
        intro l hl
        rcases List.mem_append.mp hl with h1 | h1
        · exact h l h1
        · exact readLines_ends_nl _ [] l h1
      simpa [runListen, listenStep] using ih _ hnew

/-- C10: every byte slice passed to `points.ParseText` keeps its
trailing delimiter byte (`ReadBytes` includes it and the code never
strips it), so it is non-empty; and since the `len(line) > 0` check of
line 243 is evaluated on this delimiter-inclusive slice, it filters out
no complete line: the lines dispatched in one iteration are exactly the
complete lines of the combined buffer. -/
theorem lines_keep_delimiter {P : Type} (parse : List Nat → Option P) :
    (∀ (inputs : List (Time × ReadResult)) (t0 : Time),
      ∀ l ∈ (runListen parse (initState P t0) inputs).parseCalls,
        l.getLast? = some nl ∧ l ≠ []) ∧
    (∀ (st : IterState P) (peer : String) (now : Time) (d : List Nat),
      (handleDatagram parse st peer now d).parseCalls =
        st.parseCalls ++
          (readLines [] ((pop st.storage peer now).1.getD [] ++ d)).1) := by
  constructor
  · intro inputs t0 l hl
    have hlast := runListen_parseCalls_nl parse inputs (initState P t0)
      (by intro x hx; simp [initState] at hx) l hl
    refine ⟨hlast, fun he => ?_⟩
    rw [he] at hlast
    simp at hlast
  · intro st peer now d
    exact (handleDatagram_calls parse st peer now d).1

/-- Witness for C10: after a run containing one complete line
`"B\x0a"`, that exact delimiter-terminated slice was dispatched to the
parser. -/
theorem lines_keep_delimiter_witness :
    ([66, nl] ∈ (runListen parseNone (initState Unit 0)
        [(0, ReadResult.ok ("senderA") [66, nl])]).parseCalls) ∧
    ([66, nl].getLast? = some nl ∧ ([66, nl] : List Nat) ≠ []) :=
  ⟨by decide,
   (lines_keep_delimiter parseNone).1 [(0, ReadResult.ok ("senderA") [66, nl])] 0
     [66, nl] (by decide)⟩

/-- The receive loop restricted to successful reads from the single
sender `peerA`: one `handleDatagram` iteration per timestamped
datagram. -/
def runSender {P : Type} (parse : List Nat → Option P) (st : IterState P) :
    List (Time × List Nat) → IterState P
  | [] => st
  | (t, d) :: rest => runSender parse (handleDatagram parse st peerA t d) rest

/-- The storage as seen by a single-sender run: either empty or holding
exactly one fragment for `peerA`, stored at time `ts` with deadline
`ts + Expires`.  `t0` is the creation time of the storage. -/
def senderStorage (t0 : Time) (p : Option (Time × List Nat)) : incompleteStorage :=
  { Records := match p with
      | none => []
      | some (ts, frag) => [(peerA, ⟨ts + 5 * timeSecond, frag⟩)],
    Expires := 5 * timeSecond, NextPurge := t0 + timeSecond, MaxSize := 10000 }

/-- The pending fragment described by a single-sender storage state. -/
def pfrag : Option (Time × List Nat) → List Nat
  | none => []
  | some (_, f) => f

/-- Each datagram of the split stream arrives no later than the
store's expiry (5 seconds) after the previous one — the claim's
"each datagram arrives before the store's expiry elapses". -/
def gapsOk : List (Time × List Nat) → Prop
  | [] => True
  | [_] => True
  | (t1, _) :: (t2, d2) :: rest => t2 ≤ t1 + 5 * timeSecond ∧ gapsOk ((t2, d2) :: rest)

/-- The complete lines produced by feeding the datagrams one by one
through the reassembly scheme (pending tail prepended to the next
datagram), together with the final pending tail. -/
def pureProcess (pending : List Nat) : List (List Nat) → List (List Nat) × List Nat
  | [] => ([], pending)
  | d :: ds =>
    ((readLines [] (pending ++ d)).1 ++
      (pureProcess (readLines [] (pending ++ d)).2 ds).1,
     (pureProcess (readLines [] (pending ++ d)).2 ds).2)

theorem processBuf_sender {P : Type} (parse : List Nat → Option P)
    (st1 : IterState P) (t0 now : Time) (buf : List Nat)
    (hst1 : st1.storage = senderStorage t0 none) :
    (handleTail ((readLines [] buf).1.foldl (handleLine parse) st1) peerA now
        (readLines [] buf).2).out =
      st1.out ++ (readLines [] buf).1.filterMap parse ∧
    (handleTail ((readLines [] buf).1.foldl (handleLine parse) st1) peerA now
        (readLines [] buf).2).parseCalls =
      st1.parseCalls ++ (readLines [] buf).1 ∧
    (handleTail ((readLines [] buf).1.foldl (handleLine parse) st1) peerA now
        (readLines [] buf).2).storage =
      senderStorage t0
        (if (readLines [] buf).2 = [] then none
         else some (now, (readLines [] buf).2)) := by
  obtain ⟨ho, hc, hs, _⟩ :=
    foldl_handleLine parse (readLines [] buf).1 st1 (readLines_ne_nil buf [])
  by_cases ht : (readLines [] buf).2 = []
  · simp [handleTail, ht, ho, hc, hs, hst1]
  · have hlen : 0 < (readLines [] buf).2.length :=
      List.length_pos.mpr ht
    simp only [handleTail, if_pos hlen]
    refine ⟨by simp [ho], by simp [hc], ?_⟩
    simp only [hs, hst1, if_neg ht]
    simp [store, setRecord, checkAndClear, insertRec, senderStorage, purge]

/-- One single-sender iteration: provided the datagram arrives no later
than the pending fragment's deadline, the iteration dispatches exactly
the complete lines of `pending ++ datagram`, forwards the parsed ones,
and leaves the storage holding the new tail (if any), stored at the
current time. -/
theorem handleDatagram_sender {P : Type} (parse : List Nat → Option P)
    (st : IterState P) (t0 now : Time) (p : Option (Time × List Nat))
    (d : List Nat) (hst : st.storage = senderStorage t0 p)
    (hp : ∀ ts frag, p = some (ts, frag) → now ≤ ts + 5 * timeSecond) :
    (handleDatagram parse st peerA now d).out =
      st.out ++ (readLines [] (pfrag p ++ d)).1.filterMap parse ∧
    (handleDatagram parse st peerA now d).parseCalls =
      st.parseCalls ++ (readLines [] (pfrag p ++ d)).1 ∧
    (handleDatagram parse st peerA now d).storage =
      senderStorage t0
        (if (readLines [] (pfrag p ++ d)).2 = [] then none
         else some (now, (readLines [] (pfrag p ++ d)).2)) := by
  cases p with
  | none =>
    have hpop : pop st.storage peerA now = (none, senderStorage t0 none) := by
      simp [hst, pop, senderStorage, lookupRec]
    have key := processBuf_sender parse { st with storage := senderStorage t0 none }
      t0 now d rfl
    simp only [handleDatagram, hpop] at *
    simpa [pfrag] using key
  | some tsf =>
    obtain ⟨ts, frag⟩ := tsf
    have h1 : ¬ ((ts + 5 * timeSecond : Time) < now) :=
      not_lt.mpr (hp ts frag rfl)
    have hpop : pop st.storage peerA now = (some frag, senderStorage t0 none) := by
      simp [hst, pop, senderStorage, lookupRec, eraseRec, h1]
    have key := processBuf_sender parse { st with storage := senderStorage t0 none }
      t0 now (frag ++ d) rfl
    simp only [handleDatagram, hpop] at *
    simpa [pfrag] using key

/-- Simulation of a single-sender run by the pure per-datagram line
decomposition: given timely arrivals, the run forwards exactly the
parses of the lines `pureProcess` extracts, in order. -/
theorem runSender_sim {P : Type} (parse : List Nat → Option P) :
    ∀ (arr : List (Time × List Nat)) (st : IterState P) (t0 : Time)
      (p : Option (Time × List Nat)),
      st.storage = senderStorage t0 p →
      (∀ ts frag, p = some (ts, frag) →
        ∀ t1 d1 rest, arr = (t1, d1) :: rest → t1 ≤ ts + 5 * timeSecond) →
      gapsOk arr →
      (runSender parse st arr).out =
        st.out ++ (pureProcess (pfrag p) (arr.map Prod.snd)).1.filterMap parse ∧
      (runSender parse st arr).parseCalls =
        st.parseCalls ++ (pureProcess (pfrag p) (arr.map Prod.snd)).1 := by
  intro arr
  induction arr with
  | nil => intro st t0 p hst hp hg; simp [runSender, pureProcess]
  | cons td rest ih =>
    obtain ⟨t, d⟩ := td
    intro st t0 p hst hp hg
    have hnow : ∀ ts frag, p = some (ts, frag) → t ≤ ts + 5 * timeSecond :=
      fun ts frag hp' => hp ts frag hp' t d rest rfl
    obtain ⟨ho, hc, hs⟩ := handleDatagram_sender parse st t0 t p d hst hnow
    have hp' : ∀ ts frag,
        (if (readLines [] (pfrag p ++ d)).2 = [] then none
         else some (t, (readLines [] (pfrag p ++ d)).2)) = some (ts, frag) →
        ∀ t1 d1 r1, rest = (t1, d1) :: r1 → t1 ≤ ts + 5 * timeSecond := by
      intro ts frag hsome t1 d1 r1 hrest
      by_cases he : (readLines [] (pfrag p ++ d)).2 = []
      · simp [he] at hsome
      · simp only [if_neg he, Option.some.injEq, Prod.mk.injEq] at hsome
        rw [← hsome.1]
        rw [hrest] at hg
        exact hg.1
    have hg' : gapsOk rest := by
      cases rest with
      | nil => trivial
      | cons x r2 =>
        obtain ⟨x1, x2⟩ := x
        exact hg.2
    obtain ⟨iho, ihc⟩ := ih (handleDatagram parse st peerA t d) t0 _ hs hp' hg'
    have hpf : pfrag (if (readLines [] (pfrag p ++ d)).2 = [] then none
        else some (t, (readLines [] (pfrag p ++ d)).2)) =
        (readLines [] (pfrag p ++ d)).2 := by
      by_cases he : (readLines [] (pfrag p ++ d)).2 = []
      · rw [if_pos he, he]; rfl
      · rw [if_neg he]; rfl
    rw [hpf] at iho ihc
    constructor
    · show (runSender parse (handleDatagram parse st peerA t d) rest).out = _
      rw [iho, ho, List.map_cons]
      simp only [pureProcess, List.filterMap_append, List.append_assoc]
    · show (runSender parse (handleDatagram parse st peerA t d) rest).parseCalls = _
      rw [ihc, hc, List.map_cons]
      simp only [pureProcess, List.append_assoc]

theorem pureProcess_flatten : ∀ (ds : List (List Nat)) (pending : List Nat),
    nl ∉ pending → pureProcess pending ds = readLines pending ds.flatten := by
  intro ds
  induction ds with
  | nil => intro pending h; simp [pureProcess, readLines]
  | cons d ds ih =>
    intro pending h
    have hsplit : readLines [] (pending ++ d) = readLines pending d := by
      rw [readLines_append pending d []]
      rw [readLines_nlFree pending [] h]
      simp
    have htail : nl ∉ (readLines [] (pending ++ d)).2 :=
      readLines_tail_nlFree (pending ++ d) [] (by simp)
    have hflat : readLines pending (d :: ds).flatten =
        ((readLines pending d).1 ++ (readLines (readLines pending d).2 ds.flatten).1,
          (readLines (readLines pending d).2 ds.flatten).2) := by
      rw [show (d :: ds).flatten = d ++ ds.flatten from by simp]
      exact readLines_append d ds.flatten pending
    rw [hflat]
    simp only [pureProcess, hsplit, ih (readLines pending d).2 (by
      rw [← hsplit]; exact htail)]

/-- C1: reassembly correctness.  For any split of a sender's stream
into timestamped datagrams where each datagram arrives within the
store's expiry of the previous one, the run of the ingestion loop from
a fresh state forwards exactly the successfully parsed complete lines
of the unsplit stream, in order — and passes exactly the complete lines
of the unsplit stream to the parser, in order. -/
theorem reassembly_correct {P : Type} (parse : List Nat → Option P)
    (arr : List (Time × List Nat)) (t0 : Time) (h : gapsOk arr) :
    (runSender parse (initState P t0) arr).out =
      (readLines [] (arr.map Prod.snd).flatten).1.filterMap parse ∧
    (runSender parse (initState P t0) arr).parseCalls =
      (readLines [] (arr.map Prod.snd).flatten).1 := by
  have hinit : (initState P t0).storage = senderStorage t0 none := by
    simp [initState, newIncompleteStorage, senderStorage]
  obtain ⟨ho, hc⟩ := runSender_sim parse arr (initState P t0) t0 none hinit
    (by intro ts frag hcontra; simp at hcontra) h
  rw [pureProcess_flatten (arr.map Prod.snd) (pfrag none) (by simp [pfrag])] at ho hc
  simp only [pfrag] at ho hc
  constructor
  · rw [ho]; simp [initState]
  · rw [hc]; simp [initState]

/-- Witness for C1: the stream `"A\x0aBC\x0a"` split as
`["A\x0aB", "C\x0a"]` with a 1-second gap yields the same two
forwarded records as the unsplit stream. -/
theorem reassembly_correct_witness :
    gapsOk [(0, [65, nl, 66]), (timeSecond, [67, nl])] ∧
    (runSender (fun l => some l) (initState (List Nat) 0)
        [(0, [65, nl, 66]), (timeSecond, [67, nl])]).out =
      (readLines []
        (([(0, [65, nl, 66]), ((timeSecond : Time), [67, nl])].map
          Prod.snd).flatten)).1.filterMap (fun l => some l) :=
  ⟨⟨by decide, trivial⟩,
   (reassembly_correct (fun l => some l) [(0, [65, nl, 66]), (timeSecond, [67, nl])]
      0 ⟨by decide, trivial⟩).1⟩

/-- Events on one shared `uint32` counter: an atomic increment from the
ingestion goroutine (`atomic.AddUint32(&c, 1)`, lines 209/235/245/248),
the reporter's atomic read (`atomic.LoadUint32(&c)`, e.g. line 169) and
the reporter's separate atomic subtraction of the value it just loaded
(`atomic.AddUint32(&c, -loaded)`, e.g. line 170). -/
inductive CEv where
  | inc
  | load
  | sub
deriving DecidableEq

/-- The counter cell, the reporter's local register holding the last
loaded value, and the values emitted so far via `rcv.Stat`. -/
structure CounterSt where
  counter : Nat
  loaded : Nat
  emitted : List Nat
deriving DecidableEq

/-- Effect of one atomic event; `uint32` arithmetic is taken modulo
`2^32`, with `-loaded` represented as `u32 - loaded`. -/
def counterStep (s : CounterSt) : CEv → CounterSt
  | CEv.inc => { s with counter := (s.counter + 1) % u32 }
  | CEv.load => { s with loaded := s.counter }
  | CEv.sub =>
    { s with
      counter := (s.counter + (u32 - s.loaded)) % u32,
      emitted := s.emitted ++ [s.loaded] }

def counterRun (s : CounterSt) (tr : List CEv) : CounterSt :=
  tr.foldl counterStep s

def counterZero : CounterSt := { counter := 0, loaded := 0, emitted := [] }

theorem counterRun_cons (s : CounterSt) (e : CEv) (rest : List CEv) :
    counterRun s (e :: rest) = counterRun (counterStep s e) rest := rfl

/-- The traces the code can produce: each reporter tick is a `load`
followed — possibly after interleaved `inc`s from the other goroutine —
by its matching `sub`.  The flag records whether a tick is mid-flight. -/
def reporterShape : Bool → List CEv → Bool
  | _, [] => true
  | inTick, CEv.inc :: rest => reporterShape inTick rest
  | false, CEv.load :: rest => reporterShape true rest
  | true, CEv.load :: _ => false
  | true, CEv.sub :: rest => reporterShape false rest
  | false, CEv.sub :: _ => false

/-- An atomic exchange-to-zero reset would forbid any increment from
landing strictly between the reporter's read and its reset. -/
def noIncBetween : Bool → List CEv → Bool
  | _, [] => true
  | inTick, CEv.inc :: rest => !inTick && noIncBetween inTick rest
  | _, CEv.load :: rest => noIncBetween true rest
  | _, CEv.sub :: rest => noIncBetween false rest

def incCount (tr : List CEv) : Nat :=
  tr.countP (fun e => match e with | CEv.inc => true | _ => false)

theorem incCount_cons_inc (rest : List CEv) :
    incCount (CEv.inc :: rest) = incCount rest + 1 := by
  simp [incCount, List.countP_cons]

theorem incCount_cons_load (rest : List CEv) :
    incCount (CEv.load :: rest) = incCount rest := by
  simp [incCount, List.countP_cons]

theorem incCount_cons_sub (rest : List CEv) :
    incCount (CEv.sub :: rest) = incCount rest := by
  simp [incCount, List.countP_cons]

theorem counterRun_sum : ∀ (tr : List CEv) (inTick : Bool) (s : CounterSt),
    reporterShape inTick tr = true →
    (inTick = true → s.loaded ≤ s.counter) →
    s.counter + incCount tr < u32 →
    (counterRun s tr).emitted.sum + (counterRun s tr).counter =
      s.emitted.sum + s.counter + incCount tr := by
  intro tr
  induction tr with
  | nil => intro inTick s _ _ _; simp [counterRun, incCount]
  | cons e rest ih =>
    intro inTick s hshape hload hbound
    cases e with
    | inc =>
      rw [incCount_cons_inc] at hbound ⊢
      have hc1 : s.counter + 1 < u32 := by omega
      have hmod : (s.counter + 1) % u32 = s.counter + 1 := Nat.mod_eq_of_lt hc1
      have hsh : reporterShape inTick rest = true := by
        cases inTick <;> simpa [reporterShape] using hshape
      have hih := ih inTick (counterStep s CEv.inc) hsh
        (by
          intro h
          have h2 := hload h
          simp only [counterStep, hmod]
          omega)
        (by simp only [counterStep, hmod]; omega)
      rw [counterRun_cons, hih]
      simp only [counterStep, hmod]
      omega
    | load =>
      cases inTick with
      | true => simp [reporterShape] at hshape
      | false =>
        rw [incCount_cons_load] at hbound ⊢
        have hsh : reporterShape true rest = true := by
          simpa [reporterShape] using hshape
        have hih := ih true (counterStep s CEv.load) hsh
          (by intro _; simp [counterStep])
          (by simpa [counterStep] using hbound)
        rw [counterRun_cons, hih]
        simp [counterStep]
    | sub =>
      cases inTick with
      | false => simp [reporterShape] at hshape
      | true =>
        rw [incCount_cons_sub] at hbound ⊢
        have hl : s.loaded ≤ s.counter := hload rfl
        have hclt : s.counter < u32 := by omega
        have hlu : s.loaded ≤ u32 := le_of_lt (lt_of_le_of_lt hl hclt)
        have hsub : (s.counter + (u32 - s.loaded)) % u32 =
            s.counter - s.loaded := by
          have h1 : s.counter + (u32 - s.loaded) =
              u32 + (s.counter - s.loaded) := by omega
          rw [h1, Nat.add_mod_left]
          exact Nat.mod_eq_of_lt (by omega)
        have hsh : reporterShape false rest = true := by
          simpa [reporterShape] using hshape
        have hih := ih false (counterStep s CEv.sub) hsh
          (by intro h; simp at h)
          (by simp only [counterStep, hsub]; omega)
        rw [counterRun_cons, hih]
        simp only [counterStep, hsub, List.sum_append, List.sum_cons,
          List.sum_nil]
        omega

/-- C2 (amended): the reporter's read-then-reset is a separate atomic
load followed by an atomic subtraction of the loaded value — not a
single exchange-to-zero — yet it never permanently loses increments: in
every trace the code can produce (with fewer than `2^32` increments),
the sum of all values ever emitted plus the final residual counter
value equals the total number of increments issued. -/
theorem counter_reset_no_loss (tr : List CEv)
    (hshape : reporterShape false tr = true) (hbound : incCount tr < u32) :
    (counterRun counterZero tr).emitted.sum +
      (counterRun counterZero tr).counter = incCount tr := by
  have h := counterRun_sum tr false counterZero hshape
    (by intro h2; simp at h2)
    (by simpa [counterZero] using hbound)
  simpa [counterZero] using h

/-- Witness for C2's amended theorem at the concrete trace
inc, load, inc, sub: one tick emits 1 while one increment lands
mid-tick; 1 emitted + 1 residual = 2 increments. -/
theorem counter_reset_no_loss_witness :
    reporterShape false [CEv.inc, CEv.load, CEv.inc, CEv.sub] = true ∧
    incCount [CEv.inc, CEv.load, CEv.inc, CEv.sub] < u32 ∧
    (counterRun counterZero [CEv.inc, CEv.load, CEv.inc, CEv.sub]).emitted.sum +
      (counterRun counterZero [CEv.inc, CEv.load, CEv.inc, CEv.sub]).counter =
      incCount [CEv.inc, CEv.load, CEv.inc, CEv.sub] :=
  ⟨by decide, by decide,
   counter_reset_no_loss [CEv.inc, CEv.load, CEv.inc, CEv.sub]
     (by decide) (by decide)⟩

/-- C2 counterexample: the trace load, inc, sub is a trace the code's
two-step reset (separate `LoadUint32` then `AddUint32` of the negated
value, lines 169-170) can produce, and an increment lands strictly
between the read and the reset — impossible for an atomic
exchange-to-zero.  The emitted value 0 excludes the mid-tick increment,
which survives in the residual counter. -/
theorem counter_reset_not_atomic :
    reporterShape false [CEv.load, CEv.inc, CEv.sub] = true ∧
    noIncBetween false [CEv.load, CEv.inc, CEv.sub] = false ∧
    (counterRun counterZero [CEv.load, CEv.inc, CEv.sub]).emitted = [0] ∧
    (counterRun counterZero [CEv.load, CEv.inc, CEv.sub]).counter = 1 := by
  refine ⟨by decide, by decide, ?_, ?_⟩ <;> decide

/-- Shutdown-relevant events of the ingestion goroutine program, in
program order: forwarding a parsed record to `rcv.out` (line 249,
inside the loop) and the terminal `close(rcv.finished)` (line 255,
after the loop breaks). -/
inductive LoopEv where
  | fwd
  | finClose
deriving DecidableEq

/-- The program of `Stop` (lines 263-266): `close(rcv.exit)` then the
blocking receive `<-rcv.finished`. -/
inductive StopEv where
  | exClose
  | finRecv
deriving DecidableEq

/-- A configuration of the shutdown interleaving: both goroutines'
remaining programs, whether `finished` has been closed, whether
`Stop()` has returned, and how many records have been forwarded after
`Stop()` returned. -/
structure ShutdownCfg where
  loopRem : List LoopEv
  stopRem : List StopEv
  finClosed : Bool
  stopReturned : Bool
  fwdAfterStop : Nat
deriving DecidableEq

/-- Interleaved execution: either goroutine may run its next statement
at any time, except that (Go channel semantics) the receive
`<-rcv.finished` can only complete once `close(rcv.finished)` has
executed. -/
inductive ShutdownStep : ShutdownCfg → ShutdownCfg → Prop
  | fwd (c : ShutdownCfg) (r : List LoopEv) :
      c.loopRem = LoopEv.fwd :: r →
      ShutdownStep c
        { c with
          loopRem := r,
          fwdAfterStop :=
            if c.stopReturned then c.fwdAfterStop + 1 else c.fwdAfterStop }
  | finClose (c : ShutdownCfg) (r : List LoopEv) :
      c.loopRem = LoopEv.finClose :: r →
      ShutdownStep c { c with loopRem := r, finClosed := true }
  | exClose (c : ShutdownCfg) (r : List StopEv) :
      c.stopRem = StopEv.exClose :: r →
      ShutdownStep c { c with stopRem := r }
  | finRecv (c : ShutdownCfg) (r : List StopEv) :
      c.stopRem = StopEv.finRecv :: r →
      c.finClosed = true →
      ShutdownStep c { c with stopRem := r, stopReturned := true }

/-- Initial configuration: the loop will forward `n` records and then
close `finished`; `Stop` will close `exit` and wait on `finished`. -/
def shutdownInit (n : Nat) : ShutdownCfg :=
  { loopRem := List.replicate n LoopEv.fwd ++ [LoopEv.finClose],
    stopRem := [StopEv.exClose, StopEv.finRecv],
    finClosed := false, stopReturned := false, fwdAfterStop := 0 }

def ShutdownInv (c : ShutdownCfg) : Prop :=
  ((c.finClosed = false ∧
      ∃ k, c.loopRem = List.replicate k LoopEv.fwd ++ [LoopEv.finClose]) ∨
    (c.finClosed = true ∧ c.loopRem = [])) ∧
  (c.stopReturned = true → c.finClosed = true) ∧
  c.fwdAfterStop = 0

theorem shutdownStep_inv {a b : ShutdownCfg} (h : ShutdownStep a b)
    (ha : ShutdownInv a) : ShutdownInv b := by
  obtain ⟨hshape, hret, hcnt⟩ := ha
  cases h with
  | fwd r hc =>
    rcases hshape with ⟨hf, k, hk⟩ | ⟨hf, hk⟩
    · have hsr : a.stopReturned = false := by
        cases hsr : a.stopReturned with
        | false => rfl
        | true => rw [hret hsr] at hf; cases hf
      cases k with
      | zero => rw [hk] at hc; simp at hc
      | succ k2 =>
        rw [hk] at hc
        rw [List.replicate_succ] at hc
        simp only [List.cons_append, List.cons.injEq] at hc
        refine ⟨Or.inl ⟨by simpa using hf, k2, by simp [← hc.2]⟩, ?_, ?_⟩
        · intro h2; simp at h2; rw [hret h2] at hf; cases hf
        · simp [hsr, hcnt]
    · rw [hk] at hc; cases hc
  | finClose r hc =>
    rcases hshape with ⟨hf, k, hk⟩ | ⟨hf, hk⟩
    · cases k with
      | zero =>
        rw [hk] at hc
        simp only [List.replicate, List.nil_append, List.cons.injEq] at hc
        refine ⟨Or.inr ⟨by simp, by simp [← hc.2]⟩, by intro _; simp, by simp [hcnt]⟩
      | succ k2 =>
        rw [hk, List.replicate_succ] at hc
        simp at hc
    · rw [hk] at hc; cases hc
  | exClose r hc =>
    refine ⟨?_, ?_, by simp [hcnt]⟩
    · rcases hshape with ⟨hf, k, hk⟩ | ⟨hf, hk⟩
      · exact Or.inl ⟨by simpa using hf, k, by simpa using hk⟩
      · exact Or.inr ⟨by simpa using hf, by simpa using hk⟩
    · intro h2; simp at h2; simpa using hret h2
  | finRecv r hc hfc =>
    rcases hshape with ⟨hf, k, hk⟩ | ⟨hf, hk⟩
    · rw [hfc] at hf; cases hf
    · exact ⟨Or.inr ⟨by simpa using hf, by simpa using hk⟩,
        by intro _; simpa using hf, by simp [hcnt]⟩

theorem shutdownReach_inv (n : Nat) : ∀ c : ShutdownCfg,
    Relation.ReflTransGen ShutdownStep (shutdownInit n) c → ShutdownInv c := by
  intro c h
  induction h with
  | refl =>
    refine ⟨Or.inl ⟨rfl, n, rfl⟩, ?_, rfl⟩
    intro h2
    simp [shutdownInit] at h2
  | tail _ hstep ih => exact shutdownStep_inv hstep ih

/-- C7: in every interleaving of the ingestion goroutine with `Stop()`,
once `Stop()` has returned, the completion signal `finished` has been
closed, the ingestion loop has fully exited (its remaining program is
empty), and no record has been — nor can later be — forwarded to the
output channel after `Stop()` returned. -/
theorem stop_waits_for_loop (n : Nat) (c : ShutdownCfg)
    (hreach : Relation.ReflTransGen ShutdownStep (shutdownInit n) c)
    (hret : c.stopReturned = true) :
    c.finClosed = true ∧ c.loopRem = [] ∧ c.fwdAfterStop = 0 := by
  obtain ⟨hshape, hr, hcnt⟩ := shutdownReach_inv n c hreach
  have hfc := hr hret
  rcases hshape with ⟨hf, _⟩ | ⟨_, hk⟩
  · rw [hfc] at hf; cases hf
  · exact ⟨hfc, hk, hcnt⟩

/-- The configuration reached by the canonical shutdown interleaving
for one forwarded record. -/
def shutdownFinal : ShutdownCfg :=
  { loopRem := [], stopRem := [], finClosed := true, stopReturned := true,
    fwdAfterStop := 0 }

/-- Witness for C7: the interleaving forward, close(finished),
close(exit), receive(finished) reaches a configuration in which `Stop`
has returned; there the loop has exited and nothing was forwarded after
the return. -/
theorem stop_waits_for_loop_witness :
    shutdownFinal.finClosed = true ∧ shutdownFinal.loopRem = [] ∧
      shutdownFinal.fwdAfterStop = 0 := by
  have s1 : ShutdownStep (shutdownInit 1)
      { loopRem := [LoopEv.finClose],
        stopRem := [StopEv.exClose, StopEv.finRecv],
        finClosed := false, stopReturned := false, fwdAfterStop := 0 } :=
    ShutdownStep.fwd _ _ rfl
  have s2 : ShutdownStep
      { loopRem := [LoopEv.finClose],
        stopRem := [StopEv.exClose, StopEv.finRecv],
        finClosed := false, stopReturned := false, fwdAfterStop := 0 }
      { loopRem := [], stopRem := [StopEv.exClose, StopEv.finRecv],
        finClosed := true, stopReturned := false, fwdAfterStop := 0 } :=
    ShutdownStep.finClose _ _ rfl
  have s3 : ShutdownStep
      { loopRem := [], stopRem := [StopEv.exClose, StopEv.finRecv],
        finClosed := true, stopReturned := false, fwdAfterStop := 0 }
      { loopRem := [], stopRem := [StopEv.finRecv],
        finClosed := true, stopReturned := false, fwdAfterStop := 0 } :=
    ShutdownStep.exClose _ _ rfl
  have s4 : ShutdownStep
      { loopRem := [], stopRem := [StopEv.finRecv],
        finClosed := true, stopReturned := false, fwdAfterStop := 0 }
      shutdownFinal :=
    ShutdownStep.finRecv _ _ rfl rfl
  exact stop_waits_for_loop 1 shutdownFinal
    (Relation.ReflTransGen.tail
      (Relation.ReflTransGen.tail
        (Relation.ReflTransGen.tail
          (Relation.ReflTransGen.tail Relation.ReflTransGen.refl s1) s2) s3) s4)
    rfl

end UDP
